import Mathlib

/-!
Verification of the ADIS core (src/ADIS.py): a toroidal cellular automaton over
a palette of RGB colors, a time-driven iteration scheduler, a key deriver that
serializes the grid into a run-length-compressed decimal string, and a cyclic
XOR cipher.  All definitions below are shallow embeddings of the corresponding
Python functions of class `ADISFile` (and class `Color`); names follow the
source.  Randomness (`random.randint`, `random.sample`, `random.choice` and the
rejection-sampling `while True` loop) is modelled by an explicit oracle
structure supplying the drawn values.
-/

/-- An RGB triple.  The numpy array holds cells as three `uint8` channels, so
each channel is a value below 256. -/
structure Rgb where
  r : Fin 256
  g : Fin 256
  b : Fin 256
  deriving DecidableEq

/-- Default value used for (never-taken) out-of-range list reads. -/
def rgb0 : Rgb := ⟨0, 0, 0⟩

/-- The four check directions, the strings 'left', 'right', 'up', 'down' of the
source. -/
inductive Direction where
  | left
  | right
  | up
  | down
  deriving DecidableEq

/-- Python class `Color`: one palette entry. -/
structure Color where
  rgb : Rgb
  check_direction : Direction
  activation_colors : List Rgb
  deriving DecidableEq

/-- The grid `image_array`: a resolution × resolution numpy array of RGB
triples, flattened in row-major order (cell (x, y) is at index
x * resolution + y). -/
abbrev Grid := List Rgb

/-- Flat index of cell (x, y). -/
def cellIndex (resolution x y : Nat) : Nat := x * resolution + y

/-- `ADISFile.get_check_position`: neighbor coordinate with toroidal
wraparound.  Python computes `(y - 1) % resolution` with Python's mathematical
(always-nonnegative) modulus; for 0 ≤ y < resolution this equals
`(y + resolution - 1) % resolution`, used here on `Nat`. -/
def get_check_position (resolution x y : Nat) : Direction → Nat × Nat
  | Direction.right => (x, (y + 1) % resolution)
  | Direction.left => (x, (y + resolution - 1) % resolution)
  | Direction.up => ((x + resolution - 1) % resolution, y)
  | Direction.down => ((x + 1) % resolution, y)

/-- Loop body of `ADISFile.iterate_once` at cell (x, y): look up the rule whose
rgb equals the cell's color (`next(..., None)` returns the first match, a no-op
when there is none), read the neighbor's color from the original grid `g`, and
on activation write the swapped pair into `new`. -/
def iterate_cell (resolution : Nat) (color_set : List Color) (g : Grid)
    (new : Grid) (x y : Nat) : Grid :=
  let current_color := g.getD (cellIndex resolution x y) rgb0
  match color_set.find? (fun c => c.rgb == current_color) with
  | none => new
  | some color_obj =>
    let p := get_check_position resolution x y color_obj.check_direction
    let neighbor_color := g.getD (cellIndex resolution p.1 p.2) rgb0
    if neighbor_color ∈ color_obj.activation_colors then
      (new.set (cellIndex resolution x y) neighbor_color).set
        (cellIndex resolution p.1 p.2) current_color
    else new

/-- `ADISFile.iterate_once`: one automaton pass.  `new` starts as a copy of the
grid; cells are scanned with outer `x` and inner `y` ascending; all reads go to
the original grid `g`; a later write overwrites an earlier one. -/
def iterate_once (resolution : Nat) (color_set : List Color) (g : Grid) : Grid :=
  (List.range resolution).foldl (fun new x =>
    (List.range resolution).foldl (fun new y =>
      iterate_cell resolution color_set g new x y) new) g

/-- Modelled from the spec (§4.2 reference algorithm, steps 1–3): the decision
taken at the cell with row-major index `i`.  It returns `some (i, j)` when the
rule matching the cell's color fires against the neighbor at flat index `j`
(neighbor color read from the original pre-step grid), and `none` when no rule
matches or the neighbor color is not in the activation set. -/
def cellSwap (resolution : Nat) (color_set : List Color) (g : Grid) (i : Nat) :
    Option (Nat × Nat) :=
  match color_set.find? (fun c => c.rgb == g.getD i rgb0) with
  | none => none
  | some color_obj =>
    let p := get_check_position resolution (i / resolution) (i % resolution)
      color_obj.check_direction
    let j := cellIndex resolution p.1 p.2
    if g.getD j rgb0 ∈ color_obj.activation_colors then some (i, j) else none

/-- Modelled from the spec (§4.2 reference algorithm, step 4): write the swapped
pair into the copy; values come from the pre-step grid `g`. -/
def swap_write (g new : Grid) : Option (Nat × Nat) → Grid
  | none => new
  | some p => (new.set p.1 (g.getD p.2 rgb0)).set p.2 (g.getD p.1 rgb0)

/-- Modelled from the spec (§4.2): the reference step algorithm — scan the cells
in row-major order over the flat indices 0 .. resolution² - 1 and fold the
conditional swap writes over a copy of the grid, a later-processed pair's write
overwriting an earlier-processed one. -/
def step_rowmajor (resolution : Nat) (color_set : List Color) (g : Grid) : Grid :=
  (List.range (resolution * resolution)).foldl
    (fun new i => swap_write g new (cellSwap resolution color_set g i)) g

/-- The 8-bit binary serialization of one channel, most significant bit first:
`format(value, '08b')` of the source, with characters '0'/'1' represented as
the digit values 0/1. -/
def bits8 (v : Fin 256) : List Nat :=
  [v.val / 128 % 2, v.val / 64 % 2, v.val / 32 % 2, v.val / 16 % 2,
   v.val / 8 % 2, v.val / 4 % 2, v.val / 2 % 2, v.val % 2]

/-- The serialization loop of `ADISFile.generate_key`: scan the cells in
row-major order (the flattened list order) and emit R, G, B channels as 8-bit
binary each. -/
def grid_binary (g : Grid) : List Nat :=
  g.flatMap (fun c => bits8 c.r ++ bits8 c.g ++ bits8 c.b)

/-- Decimal digits, most significant first, with an explicit structural fuel
argument (`fuel ≥ m` always holds at the call below, so the fuel never runs
out: when `fuel = 0` then `m = 0 < 10`). -/
def natDigitsGo : Nat → Nat → List Nat
  | 0, m => [m]
  | fuel + 1, m => if m < 10 then [m] else natDigitsGo fuel (m / 10) ++ [m % 10]

/-- Decimal digits of `n`, most significant first: the characters of Python's
`f"{n}"`, with digit characters represented as their values. -/
def natDigits (n : Nat) : List Nat := natDigitsGo n n

/-- The run-length-compression loop of `ADISFile.generate_key`, carrying the
current bit `cur` and its running count `cnt`; on a bit change (and at the end)
it emits the bit character followed by the decimal digits of the count. -/
def rleAux (cur cnt : Nat) : List Nat → List Nat
  | [] => cur :: natDigits cnt
  | bit :: rest =>
    if bit = cur then rleAux cur (cnt + 1) rest
    else (cur :: natDigits cnt) ++ rleAux bit 1 rest

/-- Run-length encoding of a bit string, as in `ADISFile.generate_key`.  On the
empty string the source raises `IndexError` (it reads `binary[0]`); that case
is unreachable for resolution ≥ 1 and is mapped to `[]` here. -/
def rle : List Nat → List Nat
  | [] => []
  | bit :: rest => rleAux bit 1 rest

/-- `ADISFile.generate_key`: serialize the grid to a bit string and run-length
compress it.  The result models the returned string, each character (all of
them decimal digits) represented by its digit value. -/
def generate_key (g : Grid) : List Nat :=
  rle (grid_binary g)

/-- The chunking of `encrypt_string`/`decrypt_string`:
`[int(key[i:i+2], 10) for i in range(0, len(key), 2)]` — consecutive
2-character chunks, the last chunk possibly a single character. -/
def chunk2 : List Nat → List Nat
  | [] => []
  | [a] => [a]
  | a :: b :: rest => (10 * a + b) :: chunk2 rest

/-- The keystream `key_bytes` derived from a grid. -/
def key_bytes (g : Grid) : List Nat := chunk2 (generate_key g)

/-- The key extension `key_bytes * (len(text_bytes) // len(key_bytes) + 1)` of
the source. -/
def repkey (kb : List Nat) (n : Nat) : List Nat :=
  (List.replicate (n / kb.length + 1) kb).flatten

/-- The XOR loop `bytes(a ^ b for a, b in zip(text_bytes, key_bytes * (...)))`:
`zip` truncates to the shorter sequence, i.e. to the text. -/
def xor_with_key (tb kb : List Nat) : List Nat :=
  List.zipWith (fun a b => a ^^^ b) tb (repkey kb tb.length)

/-- Lowercase hex digit of a value below 16, as produced by `bytes.hex()`:
codepoint 48 + n for the decimal digits, 97 + (n - 10) = 87 + n for a..f. -/
def hexChar (n : Nat) : Char :=
  if n < 10 then Char.ofNat (48 + n) else Char.ofNat (87 + n)

/-- Two-character lowercase hex rendering of one byte. -/
def byteToHex (byte : Nat) : List Char := [hexChar (byte / 16), hexChar (byte % 16)]

/-- Value of a hex digit character, `none` on a non-hex character.
`bytes.fromhex` accepts decimal digits plus both lowercase and uppercase
a..f / A..F. -/
def hexVal (c : Char) : Option Nat :=
  if 48 ≤ c.toNat ∧ c.toNat ≤ 57 then some (c.toNat - 48)
  else if 97 ≤ c.toNat ∧ c.toNat ≤ 102 then some (c.toNat - 87)
  else if 65 ≤ c.toNat ∧ c.toNat ≤ 70 then some (c.toNat - 55)
  else none

/-- `bytes.fromhex`: parse consecutive 2-character chunks; fail (`ValueError`,
modelled as `none`) on odd length or a non-hex character.  (The source never
feeds it whitespace, whose skipping is therefore not modelled.) -/
def hexToBytes : List Char → Option (List Nat)
  | [] => some []
  | [_] => none
  | c1 :: c2 :: rest =>
    match hexVal c1, hexVal c2, hexToBytes rest with
    | some a, some b, some l => some ((16 * a + b) :: l)
    | _, _, _ => none

/-- `ADISFile.encrypt_string`, from the UTF-8 bytes of the text: derive the key
from the grid (the source reads `self.image_array`, i.e. the grid passed here),
XOR against the cyclically extended keystream, and render as lowercase hex. -/
def encrypt_string (g : Grid) (text_bytes : List Nat) : List Char :=
  (xor_with_key text_bytes (key_bytes g)).flatMap byteToHex

/-- `ADISFile.decrypt_string`, down to the recovered byte sequence: derive the
key from the grid (the source again reads the live `self.image_array`), parse
the hex ciphertext and XOR against the extended keystream.  The final
`bytes.decode('utf-8')` of the source, which inverts `str.encode('utf-8')` on
any encrypted UTF-8 text, is not modelled beyond the bytes. -/
def decrypt_string (g : Grid) (encrypted_hex : List Char) : Option (List Nat) :=
  match hexToBytes encrypted_hex with
  | none => none
  | some encrypted_bytes => some (xor_with_key encrypted_bytes (key_bytes g))

/-- The UTF-8 encoding `text.encode('utf-8')` of a string, as a byte list
(Lean's `String.utf8EncodeChar` implements the same RFC 3629 encoding). -/
def utf8Bytes (s : String) : List Nat :=
  (s.data.flatMap (fun c => String.utf8EncodeChar c)).map (fun byte => byte.toNat)

/-- The time fields of `ADISFile`: `last_time`, `now_time`,
`iteration_speed` (minutes per step) and the monotonic `iteration_count`. -/
structure TimeState where
  last_time : Int
  now_time : Int
  iteration_speed : Int
  iteration_count : Nat
  deriving DecidableEq

/-- `ADISFile.update_times`, with the external tick (`get_internet_time()`)
passed in as `current_time`. -/
def update_times (ts : TimeState) (current_time : Int) : TimeState :=
  if ts.last_time = 0 then
    { ts with last_time := current_time,
              now_time := current_time + ts.iteration_speed }
  else
    { ts with last_time := ts.now_time, now_time := current_time }

/-- `iterations_needed = (now_time - last_time) // iteration_speed` — Python's
`//` is floor division, `Int.fdiv` here.  (With `iteration_speed = 0` the
source raises `ZeroDivisionError`; theorems below assume a positive speed.) -/
def iterations_needed (ts : TimeState) : Int :=
  (ts.now_time - ts.last_time).fdiv ts.iteration_speed

/-- `ADISFile.iterate_required`: run `iterations_needed` automaton passes
(`for _ in range(k)` runs zero times for k ≤ 0, hence `Int.toNat`), adding one
to `iteration_count` per pass.  `last_time` and `now_time` are not touched. -/
def iterate_required (resolution : Nat) (color_set : List Color)
    (ts : TimeState) (g : Grid) : TimeState × Grid :=
  let n := (iterations_needed ts).toNat
  ({ ts with iteration_count := ts.iteration_count + n },
   (fun gr => iterate_once resolution color_set gr)^[n] g)

/-- Oracle for the random draws of `ADISFile.generate_random_colors`:
`sample_rgb used` is the color accepted by the `while True` rejection loop
(which resamples until the draw is not in `used`), `sample_count m` models
`random.randint(1, m)`, `sample_activation avail k` models
`random.sample(avail, k)`, and `sample_direction i` models the
`random.choice(directions)` of the i-th generated color. -/
structure RandomOracle where
  sample_rgb : List Rgb → Rgb
  sample_count : Nat → Nat
  sample_activation : List Rgb → Nat → List Rgb
  sample_direction : Nat → Direction

/-- Loop body of `ADISFile.generate_random_colors`: `used` is `used_colors`
(the source's set, kept as a duplicate-free list), `acc` is `self.color_set`.
`available_colors = list(used_colors - {rgb})` after `used_colors.add(rgb)`. -/
def generate_random_colors_aux (o : RandomOracle) :
    Nat → List Rgb → List Color → List Color
  | 0, _, acc => acc
  | n + 1, used, acc =>
    let rgb := o.sample_rgb used
    let used2 := if rgb ∈ used then used else rgb :: used
    let available_colors := used2.filter (fun c => c != rgb)
    let activation_colors :=
      if 1 ≤ available_colors.length then
        o.sample_activation available_colors
          (o.sample_count (min 2 available_colors.length))
      else []
    generate_random_colors_aux o n used2
      (acc ++ [⟨rgb, o.sample_direction acc.length, activation_colors⟩])

/-- `ADISFile.generate_random_colors` (the spec's `build_palette`): build
`color_depth` palette entries starting from an empty used set and color set.
The source performs no validation of `color_depth` and contains no `raise`
statement: the function is total. -/
def generate_random_colors (o : RandomOracle) (color_depth : Nat) : List Color :=
  generate_random_colors_aux o color_depth [] []

/-! ### List helper lemmas -/

theorem foldl_congr_mem {α β : Type _} {l : List α} {f f2 : β → α → β}
    (h : ∀ x ∈ l, ∀ acc, f acc x = f2 acc x) :
    ∀ init, l.foldl f init = l.foldl f2 init := by
  induction l with
  | nil => intro init; rfl
  | cons a t ih =>
    intro init
    simp only [List.foldl_cons]
    rw [h a (by simp)]
    exact ih (fun x hx acc => h x (by simp [hx]) acc) _

theorem foldl_range_nested {β : Type _} (res : Nat) (hres : 0 < res)
    (h : β → Nat → Nat → β) :
    ∀ (m : Nat) (init : β),
      (List.range (m * res)).foldl (fun acc i => h acc (i / res) (i % res)) init =
      (List.range m).foldl
        (fun acc x => (List.range res).foldl (fun acc y => h acc x y) acc) init := by
  intro m
  induction m with
  | zero => intro init; simp
  | succ m ih =>
    intro init
    have hr : (m + 1) * res = m * res + res := by ring
    rw [hr, List.range_add, List.foldl_append, List.foldl_map, ih]
    rw [List.range_succ, List.foldl_append]
    simp only [List.foldl_cons, List.foldl_nil]
    apply foldl_congr_mem
    intro y hy acc
    have hy2 : y < res := List.mem_range.mp hy
    have h1 : (m * res + y) / res = m := by
      rw [Nat.mul_comm m res, Nat.mul_add_div hres, Nat.div_eq_of_lt hy2, Nat.add_zero]
    have h2 : (m * res + y) % res = y := by
      rw [Nat.mul_comm m res, Nat.mul_add_mod, Nat.mod_eq_of_lt hy2]
    rw [h1, h2]

theorem getD_set_ne {α : Type _} (l : List α) (d : α) {i j : Nat} (hij : i ≠ j) (a : α) :
    (l.set i a).getD j d = l.getD j d := by
  simp [List.getD_eq_getElem?_getD, List.getElem?_set_ne hij]

theorem set_getD_self {α : Type _} : ∀ (l : List α) (d : α) {i : Nat}, i < l.length →
    l.set i (l.getD i d) = l := by
  intro l
  induction l with
  | nil => intro d i h; simp at h
  | cons a t ih =>
    intro d i h
    cases i with
    | zero => simp [List.getD_eq_getElem?_getD]
    | succ n =>
      have hn : n < t.length := by simpa using h
      simp only [List.set_cons_succ, List.getD_eq_getElem?_getD, List.getElem?_cons_succ]
      rw [← List.getD_eq_getElem?_getD, ih d hn]

theorem set_swap_perm {α : Type _} [DecidableEq α] (l : List α) (d : α) {i j : Nat}
    (hi : i < l.length) (hj : j < l.length) :
    ((l.set i (l.getD j d)).set j (l.getD i d)).Perm l := by
  by_cases hij : i = j
  · subst hij
    rw [List.set_set, set_getD_self l d hi]
  · rw [List.perm_iff_count]
    intro a
    rw [List.getD_eq_getElem l d hi, List.getD_eq_getElem l d hj]
    have hj1 : j < (l.set i l[j]).length := by simpa using hj
    rw [List.count_set _ _ _ _ hj1, List.count_set _ _ _ _ hi]
    have hgj : (l.set i l[j])[j] = l[j] := List.getElem_set_ne hij hj1
    rw [hgj]
    have hmem : l[i] ∈ l := List.getElem_mem hi
    have hle : (if (l[i] == a) = true then 1 else 0) ≤ List.count a l := by
      split
      · next hbeq =>
        have ha : a ∈ l := by rw [← beq_iff_eq.mp hbeq]; exact hmem
        exact List.count_pos_iff.mpr ha
      · exact Nat.zero_le _
    omega

/-! ### Bounds for the swap decision -/

theorem cellIndex_lt {resolution a b : Nat} (ha : a < resolution) (hb : b < resolution) :
    cellIndex resolution a b < resolution * resolution := by
  unfold cellIndex
  calc a * resolution + b < a * resolution + resolution := by omega
    _ = (a + 1) * resolution := by ring
    _ ≤ resolution * resolution := Nat.mul_le_mul_right _ (by omega)

theorem get_check_position_lt {resolution x y : Nat} (hres : 0 < resolution)
    (hx : x < resolution) (hy : y < resolution) (d : Direction) :
    cellIndex resolution (get_check_position resolution x y d).1
      (get_check_position resolution x y d).2 < resolution * resolution := by
  cases d with
  | right => exact cellIndex_lt hx (Nat.mod_lt _ hres)
  | left => exact cellIndex_lt hx (Nat.mod_lt _ hres)
  | up => exact cellIndex_lt (Nat.mod_lt _ hres) hy
  | down => exact cellIndex_lt (Nat.mod_lt _ hres) hy

theorem cellSwap_bounds {resolution : Nat} {color_set : List Color} {g : Grid} {i : Nat}
    (hi : i < resolution * resolution) {p : Nat × Nat}
    (h : cellSwap resolution color_set g i = some p) :
    p.1 = i ∧ p.2 < resolution * resolution := by
  have hres : 0 < resolution := by
    rcases Nat.eq_zero_or_pos resolution with h0 | h0
    · rw [h0] at hi; simp at hi
    · exact h0
  cases hfind : color_set.find? (fun c => c.rgb == g.getD i rgb0) with
  | none =>
    simp only [cellSwap, hfind] at h
    exact Option.noConfusion h
  | some cobj =>
    simp only [cellSwap, hfind] at h
    split at h
    · cases h with
      | refl =>
        refine ⟨rfl, ?_⟩
        exact get_check_position_lt hres (Nat.div_lt_of_lt_mul hi) (Nat.mod_lt _ hres) _
    · exact absurd h (by simp)

/-! ### The source step equals the row-major reference step of the spec -/

theorem iterate_cell_eq_swap_write (resolution : Nat) (color_set : List Color)
    (g new : Grid) {x y : Nat} (hy : y < resolution) :
    iterate_cell resolution color_set g new x y =
      swap_write g new (cellSwap resolution color_set g (cellIndex resolution x y)) := by
  have hdiv : cellIndex resolution x y / resolution = x := by
    unfold cellIndex
    rw [Nat.mul_comm x resolution, Nat.mul_add_div (by omega), Nat.div_eq_of_lt hy,
      Nat.add_zero]
  have hmod : cellIndex resolution x y % resolution = y := by
    unfold cellIndex
    rw [Nat.mul_comm x resolution, Nat.mul_add_mod, Nat.mod_eq_of_lt hy]
  simp only [iterate_cell, cellSwap, hdiv, hmod]
  cases hfind : color_set.find? (fun c => c.rgb == g.getD (cellIndex resolution x y) rgb0) with
  | none => simp [swap_write]
  | some cobj =>
    simp only
    split
    · simp [swap_write]
    · simp [swap_write]

theorem iterate_once_eq_rowmajor (resolution : Nat) (color_set : List Color) (g : Grid) :
    iterate_once resolution color_set g = step_rowmajor resolution color_set g := by
  rcases Nat.eq_zero_or_pos resolution with hres | hres
  · rw [hres]; rfl
  · have hsplit := foldl_range_nested resolution hres
      (fun new x y => iterate_cell resolution color_set g new x y) resolution g
    have hstep : iterate_once resolution color_set g =
        (List.range (resolution * resolution)).foldl
          (fun acc i =>
            iterate_cell resolution color_set g acc (i / resolution) (i % resolution)) g := by
      unfold iterate_once
      exact hsplit.symm
    rw [hstep]
    unfold step_rowmajor
    apply foldl_congr_mem
    intro i hi acc
    have hi2 : i < resolution * resolution := List.mem_range.mp hi
    have hx : i / resolution < resolution := Nat.div_lt_of_lt_mul hi2
    have hy : i % resolution < resolution := Nat.mod_lt _ hres
    have hidx : cellIndex resolution (i / resolution) (i % resolution) = i := by
      unfold cellIndex
      rw [Nat.mul_comm]
      exact Nat.div_add_mod i resolution
    rw [iterate_cell_eq_swap_write resolution color_set g acc hy, hidx]

/-! ### Frame lemmas for one step -/

theorem step_rowmajor_length (resolution : Nat) (color_set : List Color) (g : Grid) :
    (step_rowmajor resolution color_set g).length = g.length := by
  unfold step_rowmajor
  suffices hall : ∀ (L : List Nat) (new : Grid),
      (L.foldl (fun new i => swap_write g new (cellSwap resolution color_set g i))
        new).length = new.length by
    exact hall _ g
  intro L
  induction L with
  | nil => intro new; rfl
  | cons i t ih =>
    intro new
    simp only [List.foldl_cons]
    rw [ih]
    cases hc : cellSwap resolution color_set g i with
    | none => rfl
    | some p => simp [swap_write]

theorem iterate_once_length (resolution : Nat) (color_set : List Color) (g : Grid) :
    (iterate_once resolution color_set g).length = g.length := by
  rw [iterate_once_eq_rowmajor]
  exact step_rowmajor_length resolution color_set g

theorem step_rowmajor_mem {resolution : Nat} {color_set : List Color} {g : Grid}
    (hg : g.length = resolution * resolution) :
    ∀ v ∈ step_rowmajor resolution color_set g, v ∈ g := by
  unfold step_rowmajor
  suffices hall : ∀ (L : List Nat), (∀ i ∈ L, i < resolution * resolution) →
      ∀ (new : Grid), (∀ v ∈ new, v ∈ g) →
      ∀ v ∈ L.foldl (fun new i => swap_write g new (cellSwap resolution color_set g i)) new,
        v ∈ g by
    exact hall (List.range _) (fun i hi => List.mem_range.mp hi) g (fun v hv => hv)
  intro L
  induction L with
  | nil => intro _ new hnew v hv; exact hnew v hv
  | cons i t ih =>
    intro hL new hnew v hv
    simp only [List.foldl_cons] at hv
    refine ih (fun j hj => hL j (by simp [hj])) _ ?_ v hv
    intro w hw
    cases hc : cellSwap resolution color_set g i with
    | none => rw [hc] at hw; exact hnew w hw
    | some p =>
      rw [hc] at hw
      obtain ⟨hp1, hp2⟩ := cellSwap_bounds (hL i (by simp)) hc
      unfold swap_write at hw
      rcases List.mem_or_eq_of_mem_set hw with hw1 | hw1
      · rcases List.mem_or_eq_of_mem_set hw1 with hw2 | hw2
        · exact hnew w hw2
        · rw [hw2, List.getD_eq_getElem g rgb0 (by omega : p.2 < g.length)]
          exact List.getElem_mem _
      · have hp1lt : p.1 < g.length := by
          have := hL i (by simp)
          omega
        rw [hw1, List.getD_eq_getElem g rgb0 hp1lt]
        exact List.getElem_mem _

/-! ### Color conservation under pairwise-disjoint swaps -/

/-- Whether the swap pairs decided at cells `i` and `j` (when both fire) touch
no common cell. -/
def swap_disjoint (resolution : Nat) (color_set : List Color) (g : Grid)
    (i j : Nat) : Bool :=
  match cellSwap resolution color_set g i, cellSwap resolution color_set g j with
  | some p, some q => decide (p.1 ≠ q.1 ∧ p.1 ≠ q.2 ∧ p.2 ≠ q.1 ∧ p.2 ≠ q.2)
  | _, _ => true

theorem foldl_swap_write_perm {resolution : Nat} {color_set : List Color} {g : Grid}
    (hg : g.length = resolution * resolution) :
    ∀ (L : List Nat), L.Nodup →
      (∀ i ∈ L, i < resolution * resolution) →
      (∀ i ∈ L, ∀ j ∈ L, i ≠ j → swap_disjoint resolution color_set g i j = true) →
      ∀ (new : Grid), new.length = g.length → new.Perm g →
      (∀ i ∈ L, ∀ p, cellSwap resolution color_set g i = some p →
        new.getD p.1 rgb0 = g.getD p.1 rgb0 ∧ new.getD p.2 rgb0 = g.getD p.2 rgb0) →
      (L.foldl (fun new i => swap_write g new (cellSwap resolution color_set g i))
        new).Perm g := by
  intro L
  induction L with
  | nil => intro _ _ _ new _ hperm _; exact hperm
  | cons i t ih =>
    intro hnodup hmem hdisj new hlen hperm hagree
    simp only [List.foldl_cons]
    have hi : i < resolution * resolution := hmem i (by simp)
    have hnodup2 : t.Nodup := (List.nodup_cons.mp hnodup).2
    have hinott : i ∉ t := (List.nodup_cons.mp hnodup).1
    cases hc : cellSwap resolution color_set g i with
    | none =>
      refine ih hnodup2 (fun j hj => hmem j (by simp [hj]))
        (fun a ha b hb hab => hdisj a (by simp [ha]) b (by simp [hb]) hab)
        new hlen hperm ?_
      exact fun j hj q hq => hagree j (by simp [hj]) q hq
    | some p =>
      obtain ⟨hp1, hp2⟩ := cellSwap_bounds hi hc
      obtain ⟨ha1, ha2⟩ := hagree i (by simp) p hc
      have hp1len : p.1 < new.length := by omega
      have hp2len : p.2 < new.length := by omega
      have hperm2 : (swap_write g new (some p)).Perm g := by
        simp only [swap_write]
        rw [← ha2, ← ha1]
        exact (set_swap_perm new rgb0 hp1len hp2len).trans hperm
      refine ih hnodup2 (fun j hj => hmem j (by simp [hj]))
        (fun a ha b hb hab => hdisj a (by simp [ha]) b (by simp [hb]) hab)
        (swap_write g new (some p)) ?_ hperm2 ?_
      · simp only [swap_write]; simp [hlen]
      · intro j hj q hq
        have hij : i ≠ j := fun he => hinott (he ▸ hj)
        have hd := hdisj i (by simp) j (by simp [hj]) hij
        simp only [swap_disjoint, hc, hq, decide_eq_true_eq] at hd
        obtain ⟨h11, h12, h21, h22⟩ := hd
        obtain ⟨hb1, hb2⟩ := hagree j (by simp [hj]) q hq
        constructor
        · calc (swap_write g new (some p)).getD q.1 rgb0
              = new.getD q.1 rgb0 := by
                simp only [swap_write]
                rw [getD_set_ne _ _ h21, getD_set_ne _ _ h11]
            _ = g.getD q.1 rgb0 := hb1
        · calc (swap_write g new (some p)).getD q.2 rgb0
              = new.getD q.2 rgb0 := by
                simp only [swap_write]
                rw [getD_set_ne _ _ h22, getD_set_ne _ _ h12]
            _ = g.getD q.2 rgb0 := hb2

theorem step_rowmajor_perm {resolution : Nat} {color_set : List Color} {g : Grid}
    (hg : g.length = resolution * resolution)
    (hdisj : ∀ i ∈ List.range (resolution * resolution),
      ∀ j ∈ List.range (resolution * resolution), i ≠ j →
        swap_disjoint resolution color_set g i j = true) :
    (step_rowmajor resolution color_set g).Perm g := by
  unfold step_rowmajor
  exact foldl_swap_write_perm hg (List.range _) (List.nodup_range _)
    (fun i hi => List.mem_range.mp hi) hdisj g rfl (List.Perm.refl g)
    (fun i _ q _ => ⟨rfl, rfl⟩)

/-! ### Key derivation facts -/

theorem natDigitsGo_lt_ten : ∀ (fuel m : Nat), m ≤ fuel →
    ∀ d ∈ natDigitsGo fuel m, d < 10 := by
  intro fuel
  induction fuel with
  | zero =>
    intro m hm d hd
    simp only [natDigitsGo, List.mem_cons, List.not_mem_nil, or_false] at hd
    omega
  | succ f ih =>
    intro m hm d hd
    simp only [natDigitsGo] at hd
    split at hd
    · next h => simp at hd; omega
    · next h =>
      rw [List.mem_append] at hd
      rcases hd with hd | hd
      · have hlt : m / 10 < m := Nat.div_lt_self (by omega) (by omega)
        exact ih (m / 10) (by omega) d hd
      · simp at hd; omega

theorem natDigits_lt_ten : ∀ (n : Nat), ∀ d ∈ natDigits n, d < 10 :=
  fun n => natDigitsGo_lt_ten n n (Nat.le_refl n)

theorem rleAux_ne_nil : ∀ (l : List Nat) (cur cnt : Nat), rleAux cur cnt l ≠ [] := by
  intro l
  induction l with
  | nil => intro cur cnt; simp [rleAux]
  | cons b rest ih =>
    intro cur cnt
    rw [rleAux]
    split
    · exact ih cur (cnt + 1)
    · simp

theorem rleAux_lt_ten : ∀ (l : List Nat), (∀ b ∈ l, b < 10) → ∀ (cur cnt : Nat),
    cur < 10 → ∀ d ∈ rleAux cur cnt l, d < 10 := by
  intro l
  induction l with
  | nil =>
    intro _ cur cnt hcur d hd
    simp only [rleAux] at hd
    rcases List.mem_cons.mp hd with h | h
    · omega
    · exact natDigits_lt_ten cnt d h
  | cons b rest ih =>
    intro hl cur cnt hcur d hd
    simp only [rleAux] at hd
    split at hd
    · exact ih (fun x hx => hl x (by simp [hx])) cur (cnt + 1) hcur d hd
    · rw [List.mem_append] at hd
      rcases hd with hd | hd
      · rcases List.mem_cons.mp hd with h | h
        · omega
        · exact natDigits_lt_ten cnt d h
      · exact ih (fun x hx => hl x (by simp [hx])) b 1 (hl b (by simp)) d hd

theorem bits8_lt_two (v : Fin 256) : ∀ b ∈ bits8 v, b < 2 := by
  intro b hb
  simp only [bits8, List.mem_cons, List.not_mem_nil, or_false] at hb
  rcases hb with h|h|h|h|h|h|h|h <;> subst h <;> exact Nat.mod_lt _ (by omega)

theorem grid_binary_lt_two (g : Grid) : ∀ b ∈ grid_binary g, b < 2 := by
  intro b hb
  unfold grid_binary at hb
  rw [List.mem_flatMap] at hb
  obtain ⟨c, _, hc⟩ := hb
  rcases List.mem_append.mp hc with h | h
  · rcases List.mem_append.mp h with h2 | h2
    · exact bits8_lt_two c.r b h2
    · exact bits8_lt_two c.g b h2
  · exact bits8_lt_two c.b b h

theorem rle_lt_ten (l : List Nat) (hl : ∀ b ∈ l, b < 10) : ∀ d ∈ rle l, d < 10 := by
  cases l with
  | nil => intro d hd; simp [rle] at hd
  | cons b rest =>
    intro d hd
    simp only [rle] at hd
    exact rleAux_lt_ten rest (fun x hx => hl x (by simp [hx])) b 1 (hl b (by simp)) d hd

theorem generate_key_lt_ten (g : Grid) : ∀ d ∈ generate_key g, d < 10 :=
  rle_lt_ten (grid_binary g)
    (fun b hb => by have := grid_binary_lt_two g b hb; omega)

theorem rle_ne_nil {l : List Nat} (hl : l ≠ []) : rle l ≠ [] := by
  cases l with
  | nil => exact absurd rfl hl
  | cons b rest =>
    simp only [rle]
    exact rleAux_ne_nil rest b 1

theorem grid_binary_ne_nil {g : Grid} (hg : g ≠ []) : grid_binary g ≠ [] := by
  cases g with
  | nil => exact absurd rfl hg
  | cons c rest => simp [grid_binary, bits8]

theorem chunk2_le : ∀ (l : List Nat), (∀ d ∈ l, d ≤ 9) → ∀ v ∈ chunk2 l, v ≤ 99 := by
  intro l
  induction l using chunk2.induct with
  | case1 => intro _ v hv; simp [chunk2] at hv
  | case2 a =>
    intro hl v hv
    simp only [chunk2, List.mem_cons, List.not_mem_nil, or_false] at hv
    have := hl a (by simp)
    omega
  | case3 a b rest ih =>
    intro hl v hv
    simp only [chunk2] at hv
    rcases List.mem_cons.mp hv with h | h
    · have ha := hl a (by simp)
      have hb := hl b (by simp)
      omega
    · exact ih (fun d hd => hl d (by simp [hd])) v h

theorem chunk2_ne_nil : ∀ {l : List Nat}, l ≠ [] → chunk2 l ≠ [] := by
  intro l hl
  match l with
  | [] => exact absurd rfl hl
  | [a] => simp [chunk2]
  | a :: b :: rest => simp [chunk2]

theorem chunk2_getLast_odd : ∀ (l : List Nat), l.length % 2 = 1 →
    (chunk2 l).getLast? = l.getLast? := by
  intro l
  induction l using chunk2.induct with
  | case1 => intro h; simp at h
  | case2 a => intro _; rfl
  | case3 a b rest ih =>
    intro h
    have hrest : rest.length % 2 = 1 := by
      simp only [List.length_cons] at h
      omega
    have hne : rest ≠ [] := by
      intro he
      rw [he] at hrest
      simp at hrest
    obtain ⟨c, t, hct⟩ := List.exists_cons_of_ne_nil (chunk2_ne_nil hne)
    obtain ⟨r, t2, hrt⟩ := List.exists_cons_of_ne_nil hne
    simp only [chunk2]
    rw [hct, List.getLast?_cons_cons, ← hct, ih hrest, hrt,
      List.getLast?_cons_cons, List.getLast?_cons_cons, ← hrt]

theorem key_bytes_le_99 (g : Grid) : ∀ v ∈ key_bytes g, v ≤ 99 :=
  chunk2_le (generate_key g)
    (fun d hd => by have := generate_key_lt_ten g d hd; omega)

theorem key_bytes_ne_nil {g : Grid} (hg : g ≠ []) : key_bytes g ≠ [] :=
  chunk2_ne_nil (rle_ne_nil (grid_binary_ne_nil hg))

/-! ### Cipher facts -/

theorem hexVal_hexChar {n : Nat} (h : n < 16) : hexVal (hexChar n) = some n := by
  interval_cases n <;> rfl

theorem hexToBytes_flatMap : ∀ (l : List Nat), (∀ b ∈ l, b < 256) →
    hexToBytes (l.flatMap byteToHex) = some l := by
  intro l
  induction l with
  | nil => intro _; rfl
  | cons a t ih =>
    intro hl
    have ha : a < 256 := hl a (by simp)
    have h1 : a / 16 < 16 := by omega
    have h2 : a % 16 < 16 := by omega
    simp only [List.flatMap_cons, byteToHex, List.cons_append, List.nil_append]
    simp only [hexToBytes, hexVal_hexChar h1, hexVal_hexChar h2,
      ih (fun b hb => hl b (by simp [hb]))]
    rw [Nat.div_add_mod]

theorem xor_lt_256 {a b : Nat} (ha : a < 256) (hb : b < 256) : a ^^^ b < 256 := by
  have h256 : (256 : Nat) = 2 ^ 8 := by norm_num
  rw [h256] at ha hb ⊢
  exact Nat.xor_lt_two_pow ha hb

theorem zipWith_xor_mem_lt : ∀ (tb ext : List Nat), (∀ b ∈ tb, b < 256) →
    (∀ b ∈ ext, b < 256) →
    ∀ v ∈ List.zipWith (fun a b => a ^^^ b) tb ext, v < 256 := by
  intro tb
  induction tb with
  | nil => intro ext _ _ v hv; simp at hv
  | cons a t ih =>
    intro ext htb hext v hv
    cases ext with
    | nil => simp at hv
    | cons b e =>
      simp only [List.zipWith_cons_cons, List.mem_cons] at hv
      rcases hv with hv | hv
      · rw [hv]
        exact xor_lt_256 (htb a (by simp)) (hext b (by simp))
      · exact ih e (fun x hx => htb x (by simp [hx]))
          (fun x hx => hext x (by simp [hx])) v hv

theorem zipWith_xor_cancel : ∀ (tb ext : List Nat), tb.length ≤ ext.length →
    List.zipWith (fun a b => a ^^^ b)
      (List.zipWith (fun a b => a ^^^ b) tb ext) ext = tb := by
  intro tb
  induction tb with
  | nil => intro ext _; simp
  | cons a t ih =>
    intro ext hlen
    cases ext with
    | nil => simp at hlen
    | cons b e =>
      simp only [List.zipWith_cons_cons]
      rw [ih e (by simpa using hlen)]
      rw [Nat.xor_cancel_right b a]

theorem repkey_length (kb : List Nat) (n : Nat) :
    (repkey kb n).length = (n / kb.length + 1) * kb.length := by
  unfold repkey
  rw [List.length_flatten, List.map_replicate, List.sum_replicate, smul_eq_mul]

theorem le_repkey_length {kb : List Nat} (hkb : kb ≠ []) (n : Nat) :
    n ≤ (repkey kb n).length := by
  rw [repkey_length]
  have hk : 0 < kb.length := List.length_pos.mpr hkb
  have hdm := Nat.div_add_mod n kb.length
  have hmlt : n % kb.length < kb.length := Nat.mod_lt _ hk
  rw [Nat.add_mul, one_mul, Nat.mul_comm]
  omega

theorem repkey_mem {kb : List Nat} {n : Nat} : ∀ v ∈ repkey kb n, v ∈ kb := by
  intro v hv
  unfold repkey at hv
  rw [List.mem_flatten] at hv
  obtain ⟨l, hl, hvl⟩ := hv
  rw [List.mem_replicate] at hl
  exact hl.2 ▸ hvl

theorem encrypt_decrypt_bytes {g : Grid} (hg : g ≠ []) (tb : List Nat)
    (htb : ∀ b ∈ tb, b < 256) :
    decrypt_string g (encrypt_string g tb) = some tb := by
  have hkb : key_bytes g ≠ [] := key_bytes_ne_nil hg
  have hkb256 : ∀ v ∈ key_bytes g, v < 256 := fun v hv => by
    have := key_bytes_le_99 g v hv
    omega
  have hextlen : tb.length ≤ (repkey (key_bytes g) tb.length).length :=
    le_repkey_length hkb tb.length
  have hext256 : ∀ v ∈ repkey (key_bytes g) tb.length, v < 256 :=
    fun v hv => hkb256 v (repkey_mem v hv)
  have henc256 : ∀ v ∈ xor_with_key tb (key_bytes g), v < 256 :=
    zipWith_xor_mem_lt tb _ htb hext256
  unfold encrypt_string decrypt_string
  rw [hexToBytes_flatMap _ henc256]
  show some (xor_with_key (xor_with_key tb (key_bytes g)) (key_bytes g)) = some tb
  congr 1
  have hlen2 : (List.zipWith (fun a b => a ^^^ b) tb
      (repkey (key_bytes g) tb.length)).length = tb.length := by
    rw [List.length_zipWith]
    omega
  show List.zipWith (fun a b => a ^^^ b)
      (List.zipWith (fun a b => a ^^^ b) tb (repkey (key_bytes g) tb.length))
      (repkey (key_bytes g)
        (List.zipWith (fun a b => a ^^^ b) tb (repkey (key_bytes g) tb.length)).length)
    = tb
  rw [hlen2]
  exact zipWith_xor_cancel tb _ hextlen

theorem utf8Bytes_lt_256 (s : String) : ∀ b ∈ utf8Bytes s, b < 256 := by
  intro b hb
  unfold utf8Bytes at hb
  rw [List.mem_map] at hb
  obtain ⟨u, _, hu⟩ := hb
  rw [← hu]
  exact u.toNat_lt

/-! ### Time scheduler facts -/

theorem fdiv_self_of_pos {a : Int} (h : 1 ≤ a) : a.fdiv a = 1 := by
  obtain ⟨n, rfl⟩ := Int.eq_ofNat_of_zero_le (by omega : (0 : Int) ≤ a)
  have hn : 1 ≤ n := by exact_mod_cast h
  cases n with
  | zero => omega
  | succ k =>
    show Int.fdiv (Int.ofNat (k + 1)) (Int.ofNat (k + 1)) = 1
    have heq : Int.fdiv (Int.ofNat (k + 1)) (Int.ofNat (k + 1)) =
        Int.ofNat ((k + 1) / (k + 1)) := rfl
    rw [heq, Nat.div_self (by omega)]
    rfl

/-! ### Palette construction facts -/

theorem generate_random_colors_aux_length (o : RandomOracle) :
    ∀ (n : Nat) (used : List Rgb) (acc : List Color),
      (generate_random_colors_aux o n used acc).length = acc.length + n := by
  intro n
  induction n with
  | zero => intro used acc; rfl
  | succ k ih =>
    intro used acc
    rw [generate_random_colors_aux, ih]
    simp
    omega

/-! ### Iterated steps -/

theorem iterate_once_mem {resolution : Nat} {color_set : List Color} {g : Grid}
    (hg : g.length = resolution * resolution) :
    ∀ v ∈ iterate_once resolution color_set g, v ∈ g := by
  rw [iterate_once_eq_rowmajor]
  exact step_rowmajor_mem hg

theorem iterate_n_mem {resolution : Nat} {color_set : List Color} :
    ∀ (n : Nat) (g : Grid), g.length = resolution * resolution →
      ∀ v ∈ (fun gr => iterate_once resolution color_set gr)^[n] g, v ∈ g := by
  intro n
  induction n with
  | zero => intro g _ v hv; simpa using hv
  | succ k ih =>
    intro g hg v hv
    rw [Function.iterate_succ_apply] at hv
    have h1 : (iterate_once resolution color_set g).length = resolution * resolution := by
      rw [iterate_once_length]
      exact hg
    exact iterate_once_mem hg v (ih (iterate_once resolution color_set g) h1 v hv)

/-! ### Concrete instances used by the counterexamples and witnesses -/

def colorA : Rgb := ⟨0, 0, 0⟩

def colorB : Rgb := ⟨255, 255, 255⟩

def colorC : Rgb := ⟨2, 2, 2⟩

def colorD : Rgb := ⟨3, 3, 3⟩

/-- 2×2 test palette: colorA swaps rightward when it sees colorB; colorB inert. -/
def palette1 : List Color :=
  [⟨colorA, Direction.right, [colorB]⟩, ⟨colorB, Direction.right, []⟩]

/-- 2×2 test grid: colorA at (0,0), colorB elsewhere. -/
def grid0 : Grid := [colorA, colorB, colorB, colorB]

/-- Palette in which cells (0,0) (rule colorA, direction right) and (1,1)
(rule colorC, direction up) both decide to swap with the shared cell (0,1). -/
def cexPalette : List Color :=
  [⟨colorA, Direction.right, [colorB]⟩, ⟨colorB, Direction.right, []⟩,
   ⟨colorC, Direction.up, [colorB]⟩, ⟨colorD, Direction.right, []⟩]

/-- 2×2 grid [[colorA, colorB], [colorD, colorC]]. -/
def cexGrid : Grid := [colorA, colorB, colorD, colorC]

/-- A concrete random oracle. -/
def oracle0 : RandomOracle :=
  ⟨fun _ => colorA, fun _ => 1, fun _ _ => [], fun _ => Direction.left⟩

/-- Uninitialized time state (`last_time = 0`) with iteration speed 1. -/
def ts0 : TimeState := ⟨0, 0, 1, 0⟩

/-- Initialized time state with 3 pending iterations. -/
def ts1 : TimeState := ⟨1, 4, 1, 0⟩

/-! ### Claim theorems -/

/-- C1: the claim states that decryption derives its keystream from the frozen
key-imprint snapshot (`key_image`) captured at encryption time, so that the
stored ciphertext still decrypts after the live grid evolves.  The source's
`decrypt_string` instead calls `generate_key()` on the live `image_array`
(`key_image` is written and persisted but never read anywhere).  Concretely:
after one automaton step following encryption of "hi" (bytes 104, 105), the
live grid has changed, decrypting with it does not return the plaintext, while
decrypting with the frozen encryption-time grid does. -/
theorem C1_decrypt_reads_live_grid :
    iterate_once 2 palette1 grid0 ≠ grid0 ∧
    decrypt_string (iterate_once 2 palette1 grid0)
      (encrypt_string grid0 [104, 105]) ≠ some [104, 105] ∧
    decrypt_string grid0 (encrypt_string grid0 [104, 105]) = some [104, 105] :=
  ⟨by decide, by decide, by decide⟩

/-- C2 counterexample: one step does not preserve the multiset of cell colors
when two swaps touch a common cell.  In `cexGrid`, cells (0,0) and (1,1) both
swap with cell (0,1); the scan-order overwrite drops colorA and duplicates
colorB, so the claim as stated is false. -/
theorem C2_counterexample_overlapping_swaps :
    ¬ ((iterate_once 2 cexPalette cexGrid : Multiset Rgb) = (cexGrid : Multiset Rgb)) := by
  decide

/-- C2 (amended): for every grid and palette, the multiset of cell colors is
preserved by one `step` call provided no two swaps performed in the pass touch
a common cell (pairwise-disjoint swap pairs); with overlapping swaps it can
fail, as the counterexample shows. -/
theorem C2_step_preserves_color_multiset (resolution : Nat) (color_set : List Color)
    (g : Grid) (hg : g.length = resolution * resolution)
    (hdisj : ∀ i ∈ List.range (resolution * resolution),
      ∀ j ∈ List.range (resolution * resolution), i ≠ j →
        swap_disjoint resolution color_set g i j = true) :
    (iterate_once resolution color_set g : Multiset Rgb) = (g : Multiset Rgb) := by
  rw [iterate_once_eq_rowmajor, Multiset.coe_eq_coe]
  exact step_rowmajor_perm hg hdisj

theorem C2_witness :
    grid0.length = 2 * 2 ∧
    (∀ i ∈ List.range (2 * 2), ∀ j ∈ List.range (2 * 2), i ≠ j →
      swap_disjoint 2 palette1 grid0 i j = true) ∧
    (iterate_once 2 palette1 grid0 : Multiset Rgb) = (grid0 : Multiset Rgb) :=
  ⟨by decide, by decide,
    C2_step_preserves_color_multiset 2 palette1 grid0 (by decide) (by decide)⟩

/-- C3: encrypting the UTF-8 bytes of any string (empty and multi-byte
included) and decrypting with the same keystream — the key derived from the
same unmodified grid, resolution ≥ 1 — recovers exactly the original UTF-8
byte sequence, which Python's final `bytes.decode('utf-8')` maps back to the
original string. -/
theorem C3_encrypt_decrypt_roundtrip (s : String) (resolution : Nat) (g : Grid)
    (hres : 1 ≤ resolution) (hg : g.length = resolution * resolution) :
    decrypt_string g (encrypt_string g (utf8Bytes s)) = some (utf8Bytes s) := by
  have hpos : 0 < resolution * resolution := Nat.mul_pos (by omega) (by omega)
  have hne : g ≠ [] := by
    intro he
    rw [he] at hg
    simp at hg
    omega
  exact encrypt_decrypt_bytes hne (utf8Bytes s) (utf8Bytes_lt_256 s)

theorem C3_witness :
    (1 ≤ 1) ∧ ([colorA] : Grid).length = 1 * 1 ∧
    decrypt_string [colorA] (encrypt_string [colorA] (utf8Bytes "hé")) =
      some (utf8Bytes "hé") :=
  ⟨by decide, by decide,
    C3_encrypt_decrypt_roundtrip "hé" 1 [colorA] (by decide) (by decide)⟩

/-- C4: one pass of the source's `iterate_once` equals the §4.2 reference
algorithm: scan the cells in row-major order (outer x, inner y, 0-based, i.e.
flat indices 0..R²-1), look up the rule matching each cell's color (no-op when
none matches), compute the neighbor by the rule's direction with toroidal
wraparound, read the neighbor from the original pre-step grid, and on
activation write the swapped pair into the copy, later writes overwriting
earlier ones to a shared coordinate. -/
theorem C4_step_equals_reference (resolution : Nat) (color_set : List Color)
    (g : Grid) :
    iterate_once resolution color_set g = step_rowmajor resolution color_set g :=
  iterate_once_eq_rowmajor resolution color_set g

/-- C5: for every grid of resolution ≥ 1, the keystream (the 2-character-chunk
parse of the run-length-encoded serialization) is non-empty and all its values
lie in [0, 99]. -/
theorem C5_keystream_nonempty_bounded (resolution : Nat) (g : Grid)
    (hres : 1 ≤ resolution) (hg : g.length = resolution * resolution) :
    key_bytes g ≠ [] ∧ ∀ v ∈ key_bytes g, v ≤ 99 := by
  have hpos : 0 < resolution * resolution := Nat.mul_pos (by omega) (by omega)
  have hne : g ≠ [] := by
    intro he
    rw [he] at hg
    simp at hg
    omega
  exact ⟨key_bytes_ne_nil hne, key_bytes_le_99 g⟩

theorem C5_witness :
    (1 ≤ 1) ∧ ([colorA] : Grid).length = 1 * 1 ∧
    (key_bytes [colorA] ≠ [] ∧ ∀ v ∈ key_bytes [colorA], v ≤ 99) :=
  ⟨by decide, by decide,
    C5_keystream_nonempty_bounded 1 [colorA] (by decide) (by decide)⟩

/-- C6 counterexample: called with depth 0, `generate_random_colors` does not
fail — the source has no validation and no raise statement at all (no
`ConfigError` exists anywhere in the code); the loop body simply runs zero
times and the palette is left empty. -/
theorem C6_counterexample_depth_zero_no_error :
    generate_random_colors oracle0 0 = [] := rfl

/-- C6 (amended): `generate_random_colors` (the spec's `build_palette`) has no
precondition and no error path for any depth ≥ 0: for every oracle and every
depth, including depth = 0, it returns normally with exactly `color_depth`
palette entries; depth = 0 yields the empty palette instead of failing with a
`ConfigError`, and `ADISFile.__init__` likewise performs no validation. -/
theorem C6_build_palette_total (o : RandomOracle) (color_depth : Nat) :
    (generate_random_colors o color_depth).length = color_depth := by
  unfold generate_random_colors
  rw [generate_random_colors_aux_length]
  simp

/-- C7: `update_times` with iteration_speed ≥ 1: in the uninitialized case
(`last_time = 0`) it sets `last_time` to the external tick and `now_time` to
tick + speed, after which `iterate_required` performs exactly one automaton
step and adds one to the iteration count; in the initialized case it shifts
`last_time ← now_time`, `now_time ← tick`. -/
theorem C7_update_times_spec (ts : TimeState) (t : Int) (resolution : Nat)
    (color_set : List Color) (g : Grid) (hspeed : 1 ≤ ts.iteration_speed) :
    (ts.last_time = 0 →
      update_times ts t =
        { ts with last_time := t, now_time := t + ts.iteration_speed } ∧
      iterate_required resolution color_set (update_times ts t) g =
        ({ ts with
            last_time := t
            now_time := t + ts.iteration_speed
            iteration_count := ts.iteration_count + 1 },
         iterate_once resolution color_set g)) ∧
    (ts.last_time ≠ 0 →
      update_times ts t = { ts with last_time := ts.now_time, now_time := t }) := by
  constructor
  · intro h0
    have hupd : update_times ts t =
        { ts with last_time := t, now_time := t + ts.iteration_speed } := by
      unfold update_times
      rw [if_pos h0]
    refine ⟨hupd, ?_⟩
    rw [hupd]
    simp only [iterate_required, iterations_needed]
    have harith : t + ts.iteration_speed - t = ts.iteration_speed := by ring
    rw [harith, fdiv_self_of_pos hspeed]
    simp [Function.iterate_one]
  · intro h0
    unfold update_times
    rw [if_neg h0]

theorem C7_witness :
    (1 ≤ ts0.iteration_speed) ∧
    ((ts0.last_time = 0 →
      update_times ts0 5 =
        { ts0 with last_time := 5, now_time := 5 + ts0.iteration_speed } ∧
      iterate_required 1 palette1 (update_times ts0 5) [colorA] =
        ({ ts0 with
            last_time := 5
            now_time := 5 + ts0.iteration_speed
            iteration_count := ts0.iteration_count + 1 },
         iterate_once 1 palette1 [colorA])) ∧
     (ts0.last_time ≠ 0 →
      update_times ts0 5 = { ts0 with last_time := ts0.now_time, now_time := 5 })) :=
  ⟨by decide, C7_update_times_spec ts0 5 1 palette1 [colorA] (by decide)⟩

/-- C8: `iterate_required` never modifies `last_time`, `now_time` or the
iteration speed; with pending = floor((now - last) / speed) ≤ 0 it leaves the
grid and the count unchanged (0 iterations); with pending > 0 it applies the
step exactly pending times and adds pending to the count; and a second call
without an intervening `update_times` recomputes the same pending and applies
the same number of steps again.  (`iteration_speed = 0` would raise
`ZeroDivisionError` in the source and is excluded.) -/
theorem C8_iterate_required_frame (resolution : Nat) (color_set : List Color)
    (ts : TimeState) (g : Grid) (hspeed : 1 ≤ ts.iteration_speed) :
    ((iterate_required resolution color_set ts g).1.last_time = ts.last_time ∧
     (iterate_required resolution color_set ts g).1.now_time = ts.now_time ∧
     (iterate_required resolution color_set ts g).1.iteration_speed =
       ts.iteration_speed) ∧
    (iterations_needed ts ≤ 0 →
      (iterate_required resolution color_set ts g).2 = g ∧
      (iterate_required resolution color_set ts g).1.iteration_count =
        ts.iteration_count) ∧
    (0 < iterations_needed ts →
      (iterate_required resolution color_set ts g).2 =
        (fun gr => iterate_once resolution color_set gr)^[(iterations_needed ts).toNat] g ∧
      (iterate_required resolution color_set ts g).1.iteration_count =
        ts.iteration_count + (iterations_needed ts).toNat) ∧
    (iterations_needed (iterate_required resolution color_set ts g).1 =
       iterations_needed ts ∧
     (iterate_required resolution color_set
        (iterate_required resolution color_set ts g).1
        (iterate_required resolution color_set ts g).2).2 =
       (fun gr => iterate_once resolution color_set gr)^[(iterations_needed ts).toNat]
         ((iterate_required resolution color_set ts g).2)) := by
  refine ⟨⟨rfl, rfl, rfl⟩, ?_, fun _ => ⟨rfl, rfl⟩, ⟨rfl, rfl⟩⟩
  intro hle
  have h0 : (iterations_needed ts).toNat = 0 := Int.toNat_of_nonpos hle
  constructor
  · show (fun gr => iterate_once resolution color_set gr)^[(iterations_needed ts).toNat] g = g
    rw [h0]
    rfl
  · show ts.iteration_count + (iterations_needed ts).toNat = ts.iteration_count
    rw [h0]
    omega

theorem C8_witness :
    (1 ≤ ts1.iteration_speed) ∧
    (((iterate_required 1 palette1 ts1 [colorA]).1.last_time = ts1.last_time ∧
      (iterate_required 1 palette1 ts1 [colorA]).1.now_time = ts1.now_time ∧
      (iterate_required 1 palette1 ts1 [colorA]).1.iteration_speed =
        ts1.iteration_speed) ∧
     (iterations_needed ts1 ≤ 0 →
      (iterate_required 1 palette1 ts1 [colorA]).2 = [colorA] ∧
      (iterate_required 1 palette1 ts1 [colorA]).1.iteration_count =
        ts1.iteration_count) ∧
     (0 < iterations_needed ts1 →
      (iterate_required 1 palette1 ts1 [colorA]).2 =
        (fun gr => iterate_once 1 palette1 gr)^[(iterations_needed ts1).toNat] [colorA] ∧
      (iterate_required 1 palette1 ts1 [colorA]).1.iteration_count =
        ts1.iteration_count + (iterations_needed ts1).toNat) ∧
     (iterations_needed (iterate_required 1 palette1 ts1 [colorA]).1 =
        iterations_needed ts1 ∧
      (iterate_required 1 palette1
         (iterate_required 1 palette1 ts1 [colorA]).1
         (iterate_required 1 palette1 ts1 [colorA]).2).2 =
        (fun gr => iterate_once 1 palette1 gr)^[(iterations_needed ts1).toNat]
          ((iterate_required 1 palette1 ts1 [colorA]).2))) :=
  ⟨by decide, C8_iterate_required_frame 1 palette1 ts1 [colorA] (by decide)⟩

/-- C9: every cell value of the grid after one step is a value that was present
in the pre-step grid (writes only copy pre-step values); consequently after any
number of steps every cell value was present initially, and in particular if
every cell held a palette color before, every cell holds a palette color after
any number of steps. -/
theorem C9_step_values_from_prestep (resolution : Nat) (color_set : List Color)
    (g : Grid) (hg : g.length = resolution * resolution) :
    (∀ v ∈ iterate_once resolution color_set g, v ∈ g) ∧
    (∀ n : Nat, ∀ v ∈ (fun gr => iterate_once resolution color_set gr)^[n] g, v ∈ g) ∧
    ((∀ v ∈ g, ∃ c ∈ color_set, c.rgb = v) →
      ∀ n : Nat, ∀ v ∈ (fun gr => iterate_once resolution color_set gr)^[n] g,
        ∃ c ∈ color_set, c.rgb = v) := by
  refine ⟨iterate_once_mem hg, fun n => iterate_n_mem n g hg, ?_⟩
  intro hpal n v hv
  exact hpal v (iterate_n_mem n g hg v hv)

theorem C9_witness :
    grid0.length = 2 * 2 ∧ (∀ v ∈ iterate_once 2 palette1 grid0, v ∈ grid0) :=
  ⟨by decide, (C9_step_values_from_prestep 2 palette1 grid0 (by decide)).1⟩

/-- C10: the run-length-compressed key string consists only of decimal digit
characters (every element of the modelled digit string is < 10), so parsing
each 2-character chunk as a base-10 integer never fails; and when the key
string has odd length the final chunk is exactly its final single digit (hence
a keystream value in [0, 9]). -/
theorem C10_key_string_digits (g : Grid) :
    (∀ d ∈ generate_key g, d < 10) ∧
    (Odd (generate_key g).length →
      (chunk2 (generate_key g)).getLast? = (generate_key g).getLast?) := by
  refine ⟨generate_key_lt_ten g, ?_⟩
  intro hodd
  exact chunk2_getLast_odd _ (Nat.odd_iff.mp hodd)

theorem C10_witness :
    (∀ d ∈ generate_key [colorA], d < 10) ∧
    (chunk2 (generate_key [colorA])).getLast? = (generate_key [colorA]).getLast? :=
  ⟨(C10_key_string_digits [colorA]).1, (C10_key_string_digits [colorA]).2 (by decide)⟩
